import Mathlib

/-!
Verification of the structured-feedback parsing pipeline, the error-to-source
locator, the cost calculator and the backend adapters of the language_tutor
repository.  Text is modelled as `List Char`; the Python functions of
`exercise.py`, `utils.py`, `feedback_handler.py`, `config.py`,
`llms/lite.py` and `llms/openai_impl.py` are embedded as executable Lean
definitions, and the behavioural claims about them are proved below.
-/

namespace LanguageTutor

/-- Whitespace characters recognised by Python's `str.split` / `str.strip` /
the regex class backslash-s (ASCII range). -/
def pyWS (c : Char) : Bool :=
  c = ' ' || c = '\t' || c = '\n' || c = '\r' || c = '\x0c' || c = '\x0b'

/-- ASCII lower-casing of one character, as `str.lower` acts on ASCII. -/
def lowerChar (c : Char) : Char :=
  if 'A' ≤ c ∧ c ≤ 'Z' then Char.ofNat (c.toNat + 32) else c

/-- ASCII lower-casing of a text. -/
def lowers (s : List Char) : List Char := s.map lowerChar

/-- Left trim (Python `lstrip`). -/
def trimLeft (s : List Char) : List Char := s.dropWhile pyWS

/-- Right trim (Python `rstrip`). -/
def trimRight (s : List Char) : List Char := (s.reverse.dropWhile pyWS).reverse

/-- Python `str.strip`. -/
def trim (s : List Char) : List Char := trimRight (trimLeft s)

/-- Index of the first occurrence of `n` in `h` (the position of the leftmost
match of the literal pattern `n`, as `re.search` / `str.find` locate it). -/
def findFrom (n : List Char) : List Char → Option Nat
  | [] => if n = [] then some 0 else none
  | c :: t => if n.isPrefixOf (c :: t) then some 0 else (findFrom n t).map (· + 1)

/-- `n` occurs in `h` at position `i`. -/
def occursAt (n h : List Char) (i : Nat) : Prop := n.isPrefixOf (h.drop i) = true

instance (n h : List Char) (i : Nat) : Decidable (occursAt n h i) := by
  unfold occursAt; infer_instance

/-- `i` is the position of the leftmost occurrence of `n` in `h`. -/
def firstOccur (n h : List Char) (i : Nat) : Prop :=
  occursAt n h i ∧ ∀ k, k < i → ¬ occursAt n h k

theorem isPrefixOf_cons_cons (a c : Char) (n t : List Char) :
    (a :: n).isPrefixOf (c :: t) = (a == c && n.isPrefixOf t) := rfl

theorem isPrefixOf_append_self (n r : List Char) : n.isPrefixOf (n ++ r) = true := by
  induction n with
  | nil => simp [List.isPrefixOf]
  | cons c t ih => simp [List.isPrefixOf, ih]

theorem occursAt_nil_iff (n : List Char) (i : Nat) : occursAt n [] i ↔ n = [] := by
  unfold occursAt
  rw [List.drop_nil]
  cases n with
  | nil => simp [List.isPrefixOf]
  | cons a t => simp [List.isPrefixOf]

theorem occursAt_cons_succ (n : List Char) (c : Char) (t : List Char) (i : Nat) :
    occursAt n (c :: t) (i + 1) ↔ occursAt n t i := by
  unfold occursAt
  rw [List.drop_succ_cons]

theorem occursAt_zero (n h : List Char) : occursAt n h 0 ↔ n.isPrefixOf h = true := by
  unfold occursAt
  rw [List.drop_zero]

theorem findFrom_eq_none_iff (n h : List Char) :
    findFrom n h = none ↔ ∀ i, ¬ occursAt n h i := by
  induction h with
  | nil =>
    by_cases hn : n = []
    · subst hn
      constructor
      · intro he; simp [findFrom] at he
      · intro hall
        exact absurd ((occursAt_nil_iff [] 0).mpr rfl) (hall 0)
    · constructor
      · intro _ i hocc
        exact hn ((occursAt_nil_iff n i).mp hocc)
      · intro _
        simp [findFrom, hn]
  | cons c t ih =>
    constructor
    · intro he i hocc
      rw [findFrom] at he
      by_cases hp : n.isPrefixOf (c :: t) = true
      · simp [hp] at he
      · rw [if_neg (by simp [hp]), Option.map_eq_none'] at he
        cases i with
        | zero => exact hp ((occursAt_zero n (c :: t)).mp hocc)
        | succ k => exact (ih.mp he) k ((occursAt_cons_succ n c t k).mp hocc)
    · intro hall
      rw [findFrom]
      have hp : ¬ n.isPrefixOf (c :: t) = true := fun hp =>
        hall 0 ((occursAt_zero n (c :: t)).mpr hp)
      rw [if_neg (by simp [hp]), Option.map_eq_none']
      exact ih.mpr (fun k hk => (hall (k + 1)) ((occursAt_cons_succ n c t k).mpr hk))

theorem findFrom_eq_some_iff (n h : List Char) (i : Nat) :
    findFrom n h = some i ↔ firstOccur n h i := by
  induction h generalizing i with
  | nil =>
    by_cases hn : n = []
    · subst hn
      constructor
      · intro he
        simp [findFrom] at he
        subst he
        exact ⟨(occursAt_nil_iff [] 0).mpr rfl, fun k hk => by omega⟩
      · rintro ⟨_, hmin⟩
        rcases Nat.eq_zero_or_pos i with h0 | h0
        · subst h0; simp [findFrom]
        · exact absurd ((occursAt_nil_iff [] 0).mpr rfl) (hmin 0 h0)
    · constructor
      · intro he; simp [findFrom, hn] at he
      · rintro ⟨hocc, _⟩
        exact absurd ((occursAt_nil_iff n i).mp hocc) hn
  | cons c t ih =>
    constructor
    · intro he
      rw [findFrom] at he
      by_cases hp : n.isPrefixOf (c :: t) = true
      · rw [if_pos hp, Option.some.injEq] at he
        subst he
        exact ⟨(occursAt_zero n (c :: t)).mpr hp, fun k hk => by omega⟩
      · rw [if_neg (by simp [hp])] at he
        rcases Option.map_eq_some'.mp he with ⟨j, hj, hji⟩
        rcases (ih j).mp hj with ⟨hocc, hmin⟩
        subst hji
        refine ⟨(occursAt_cons_succ n c t j).mpr hocc, ?_⟩
        intro k hk
        cases k with
        | zero => exact fun h0 => hp ((occursAt_zero n (c :: t)).mp h0)
        | succ m =>
          intro hocc'
          exact hmin m (by omega) ((occursAt_cons_succ n c t m).mp hocc')
    · rintro ⟨hocc, hmin⟩
      rw [findFrom]
      cases i with
      | zero =>
        rw [if_pos ((occursAt_zero n (c :: t)).mp hocc)]
      | succ m =>
        have hp : ¬ n.isPrefixOf (c :: t) = true := fun hp =>
          hmin 0 (Nat.succ_pos m) ((occursAt_zero n (c :: t)).mpr hp)
        rw [if_neg (by simp [hp])]
        have : findFrom n t = some m := by
          refine (ih m).mpr ⟨(occursAt_cons_succ n c t m).mp hocc, ?_⟩
          intro k hk hk'
          exact hmin (k + 1) (by omega) ((occursAt_cons_succ n c t k).mpr hk')
        simp [this]

/-- If every char of `pre` differs from the first char of the needle, searching
in `pre ++ rest` just shifts a search in `rest`. -/
theorem findFrom_append_all_ne (a : Char) (n' pre rest : List Char)
    (hpre : pre.all (fun c => c ≠ a) = true) :
    findFrom (a :: n') (pre ++ rest) = (findFrom (a :: n') rest).map (· + pre.length) := by
  induction pre with
  | nil =>
    simp only [List.nil_append, List.length_nil]
    cases findFrom (a :: n') rest <;> simp
  | cons c t ih =>
    simp only [List.all_cons, Bool.and_eq_true, decide_eq_true_eq] at hpre
    have hac : (a == c) = false := beq_eq_false_iff_ne.mpr (fun hh => hpre.1 hh.symm)
    have hne : ((a :: n').isPrefixOf (c :: (t ++ rest))) = false := by
      rw [isPrefixOf_cons_cons, hac, Bool.false_and]
    rw [List.cons_append, findFrom, if_neg (by simp [hne]), ih hpre.2]
    cases findFrom (a :: n') rest with
    | none => simp
    | some v => simp; omega

theorem findFrom_append_self (n rest : List Char) (hn : n ≠ []) :
    findFrom n (n ++ rest) = some 0 := by
  cases n with
  | nil => exact absurd rfl hn
  | cons a t =>
    rw [List.cons_append, findFrom, if_pos (by
      rw [isPrefixOf_cons_cons, beq_self_eq_true, Bool.true_and]
      exact isPrefixOf_append_self t rest)]

/-- Case-insensitive leftmost search, as `re.search` with `re.IGNORECASE`
locates a literal pattern. -/
def findCI (n h : List Char) : Option Nat := findFrom (lowers n) (lowers h)

/-- `n` occurs case-insensitively in `h` at position `i`. -/
def occursAtCI (n h : List Char) (i : Nat) : Prop := occursAt (lowers n) (lowers h) i

instance (n h : List Char) (i : Nat) : Decidable (occursAtCI n h i) := by
  unfold occursAtCI; infer_instance

/-- `i` is the position of the leftmost case-insensitive occurrence of `n` in `h`. -/
def firstOccurCI (n h : List Char) (i : Nat) : Prop :=
  firstOccur (lowers n) (lowers h) i

theorem findCI_eq_none_iff (n h : List Char) :
    findCI n h = none ↔ ∀ i, ¬ occursAtCI n h i :=
  findFrom_eq_none_iff (lowers n) (lowers h)

theorem findCI_eq_some_iff (n h : List Char) (i : Nat) :
    findCI n h = some i ↔ firstOccurCI n h i :=
  findFrom_eq_some_iff (lowers n) (lowers h) i

/-! ### `extract_content_from_xml` (exercise.py lines 20-37)

Python:
```
pattern = f"<TAG>(.*?)</TAG>"
match = re.search(pattern, text, re.DOTALL | re.IGNORECASE)
if match:
    content = match.group(1).strip()
    return content if content and content.lower() != "none." else default
return default
```
With the lazy group and leftmost-match semantics, the matched span starts at
the first case-insensitive occurrence of the opening tag that is followed by
a closing tag, and the group runs up to the first closing tag after it; if a
closing tag exists after any opening tag it also exists after the first one,
so the match (when it exists) starts at the first opening tag. -/

/-- The literal opening tag of `tag`. -/
def openTagOf (tag : List Char) : List Char := '<' :: tag ++ ['>']

/-- The literal closing tag of `tag`. -/
def closeTagOf (tag : List Char) : List Char := '<' :: '/' :: tag ++ ['>']

/-- The sentinel content. -/
def noneDot : List Char := "none.".data

/-- `extract_content_from_xml(text, tag_name, default="")`. -/
def extract_content_from_xml (text tag : List Char) (dflt : List Char := []) : List Char :=
  let op := openTagOf tag
  let cl := closeTagOf tag
  match findCI op text with
  | none => dflt
  | some i =>
    let region := text.drop (i + op.length)
    match findCI cl region with
    | none => dflt
    | some j =>
      let c := trim (region.take j)
      if c ≠ [] ∧ lowers c ≠ noneDot then c else dflt

/-! ### `extract_annotated_errors` (exercise.py lines 132-157)

Python:
```
pattern = r"<text>(.*?)</text>\s*(.*?)(?=$|\n\s*-\s*<text>|\Z)"
matches = re.findall(pattern, content, re.DOTALL)
```
`re.findall` repeatedly takes the leftmost match and resumes at its end.  A
match grabs the first `<text>`, the lazily-closest `</text>`, greedily skips
whitespace, and then the lazy explanation group stops at the first position
where the lookahead holds: end of input, just before a final newline, or a
newline followed by optional whitespace, one dash, optional whitespace and a
literal `<text>`.  Because the dollar and backslash-Z alternatives always
hold at the end of the input, the lookahead always eventually succeeds. -/

def openText : List Char := "<text>".data

def closeText : List Char := "</text>".data

/-- Does the lookahead `(?=$|\n\s*-\s*<text>|\Z)` hold at this suffix? -/
def laHolds : List Char → Bool
  | [] => true
  | c :: rest =>
    c = '\n' &&
      (rest = [] ||
        (match rest.dropWhile pyWS with
         | d :: r2 => d = '-' && openText.isPrefixOf (r2.dropWhile pyWS)
         | [] => false))

/-- Split the suffix at the first position where the lookahead holds:
the lazily-minimal explanation group, and what follows it. -/
def explScan : List Char → List Char × List Char
  | [] => ([], [])
  | c :: rest =>
    if laHolds (c :: rest) then ([], c :: rest)
    else
      let p := explScan rest
      (c :: p.1, p.2)

theorem explScan_snd_length (s : List Char) : (explScan s).2.length ≤ s.length := by
  induction s with
  | nil => simp [explScan]
  | cons c rest ih =>
    rw [explScan]
    by_cases h : laHolds (c :: rest) = true
    · simp [h]
    · simp only [Bool.not_eq_true] at h
      simp only [h, Bool.false_eq_true, if_false, List.length_cons]
      omega

theorem dropWhile_length_le (p : Char → Bool) (l : List Char) :
    (l.dropWhile p).length ≤ l.length := by
  induction l with
  | nil => simp
  | cons c t ih =>
    rw [List.dropWhile_cons]
    by_cases h : p c = true
    · simp only [h, if_true, List.length_cons]; omega
    · simp [h]

theorem findFrom_some_le (n h : List Char) (i : Nat) (he : findFrom n h = some i) :
    i + n.length ≤ h.length := by
  have hocc := ((findFrom_eq_some_iff n h i).mp he).1
  unfold occursAt at hocc
  have hp := (List.isPrefixOf_iff_prefix.mp hocc).length_le
  rw [List.length_drop] at hp
  cases n with
  | nil =>
    rcases (findFrom_eq_some_iff [] h i).mp he with ⟨_, hmin⟩
    rcases Nat.eq_zero_or_pos i with h0 | h0
    · simp [h0]
    · exact absurd (by simp [occursAt, List.isPrefixOf] : occursAt [] h 0) (hmin 0 h0)
  | cons a t =>
    have h1 : 1 ≤ (a :: t).length := by simp
    omega

/-- Helper of `scanAnnots`: one unit of fuel per match; every match consumes
at least the six characters of the opening tag, so fuel equal to the input
length never runs out. -/
def scanAnnotsAux : Nat → List Char → List (List Char × List Char)
  | 0, _ => []
  | fuel + 1, s =>
    match findFrom openText s with
    | none => []
    | some i =>
      match findFrom closeText (s.drop (i + 6)) with
      | none => []
      | some j =>
        let t1 := s.drop (i + 6)
        let frag := t1.take j
        let t2 := (t1.drop (j + 7)).dropWhile pyWS
        let pr := explScan t2
        (frag, pr.1) :: scanAnnotsAux fuel pr.2

/-- The successive `(fragment, explanation)` raw captures produced by
`re.findall` on the annotated-error pattern. -/
def scanAnnots (s : List Char) : List (List Char × List Char) :=
  scanAnnotsAux s.length s

/-- Strip exactly one leading dash and following whitespace
(`explanation[1:].strip()` after a `startswith("-")` test). -/
def dashClean (e : List Char) : List Char :=
  if e.head? = some '-' then trim (e.drop 1) else e

/-- The per-match clean-up of `extract_annotated_errors`. -/
def cleanPair (p : List Char × List Char) : List Char × List Char :=
  (trim p.1, dashClean (trim p.2))

/-- `extract_annotated_errors(content)`. -/
def extract_annotated_errors (content : List Char) : List (List Char × List Char) :=
  if content = [] ∨ lowers content = noneDot then []
  else (scanAnnots content).map cleanPair

/-! ### The error-to-source locator (feedback_handler.py lines 110-134)

```
search_error = " ".join(error_text.split())
cursor = doc.find(search_error, cursor, QTextDocument.FindCaseSensitively)
if cursor.isNull():
    relaxed_error = r"\b" + r"\b\s+\b".join(search_error.split()) + r"\b"
    pattern = re.compile(relaxed_error, re.IGNORECASE)
    match = pattern.search(text)
```
The relaxed pattern is a word boundary, the tokens of the normalized
fragment joined by the three-element separator boundary/whitespace-run/
boundary, and a final word boundary.  The tokens are NOT passed through
`re.escape`, so a dot inside a token is the any-but-newline wildcard.  We
embed exactly the fragment of the regex language these patterns live in:
literal (case-insensitive) characters, the dot wildcard, word boundaries
and greedy one-or-more whitespace runs. -/

/-- A single-character matcher of the relaxed pattern. -/
inductive CAtom where
  | lit (c : Char)
  | dot
deriving DecidableEq

/-- An element of the relaxed pattern. -/
inductive PatElem where
  | wb
  | ws
  | atom (a : CAtom)
deriving DecidableEq

/-- Case-insensitive single-character matching; the dot wildcard matches
everything except a newline (no `re.DOTALL` here). -/
def atomMatches : CAtom → Char → Bool
  | .lit c, d => lowerChar c = lowerChar d
  | .dot, d => d ≠ '\n'

/-- A regex word character (ASCII). -/
def isWordChar (c : Char) : Bool :=
  ('a' ≤ c && c ≤ 'z') || ('A' ≤ c && c ≤ 'Z') || ('0' ≤ c && c ≤ '9') || c = '_'

/-- Is the character at index `i` a word character? -/
def wordAt (text : List Char) (i : Nat) : Bool :=
  match text[i]? with
  | some c => isWordChar c
  | none => false

/-- Does a word boundary hold at position `i`? -/
def isWB (text : List Char) (i : Nat) : Bool :=
  (if i = 0 then false else wordAt text (i - 1)) != wordAt text i

/-- All end positions of matches of the pattern starting at `i`, in the
backtracking order of the regex engine (whitespace runs greedy). -/
def matchEnds (text : List Char) : List PatElem → Nat → List Nat
  | [], i => [i]
  | .wb :: ps, i => if isWB text i then matchEnds text ps i else []
  | .atom a :: ps, i =>
    match text[i]? with
    | some c => if atomMatches a c then matchEnds text ps (i + 1) else []
    | none => []
  | .ws :: ps, i =>
    let m := ((text.drop i).takeWhile pyWS).length
    ((List.range m).map (fun d => m - d)).flatMap (fun k => matchEnds text ps (i + k))

/-- `k ≥ 1` whitespace characters stand at positions `i, ..., i + k - 1`. -/
def wsSpanOk (text : List Char) (i k : Nat) : Prop :=
  1 ≤ k ∧ ∀ d, d < k → ∃ c, text[i + d]? = some c ∧ pyWS c = true

/-- Declarative matching relation for the embedded pattern language. -/
inductive PatMatch (text : List Char) : List PatElem → Nat → Nat → Prop where
  | nil (i : Nat) : PatMatch text [] i i
  | wb (ps : List PatElem) (i j : Nat) : isWB text i = true →
      PatMatch text ps i j → PatMatch text (.wb :: ps) i j
  | atom (a : CAtom) (ps : List PatElem) (i j : Nat) (c : Char) :
      text[i]? = some c → atomMatches a c = true →
      PatMatch text ps (i + 1) j → PatMatch text (.atom a :: ps) i j
  | ws (ps : List PatElem) (i j k : Nat) : wsSpanOk text i k →
      PatMatch text ps (i + k) j → PatMatch text (.ws :: ps) i j

theorem takeWhile_length_iff (p : Char → Bool) (l : List Char) (k : Nat) :
    k ≤ (l.takeWhile p).length ↔ ∀ d, d < k → ∃ c, l[d]? = some c ∧ p c = true := by
  induction l generalizing k with
  | nil =>
    simp only [List.takeWhile_nil, List.length_nil, Nat.le_zero]
    constructor
    · intro hk d hd; omega
    · intro hall
      by_contra hk
      rcases hall 0 (by omega) with ⟨c, hc, _⟩
      simp at hc
  | cons c t ih =>
    rw [List.takeWhile_cons]
    by_cases hc : p c = true
    · simp only [hc, if_true, List.length_cons]
      cases k with
      | zero => simp
      | succ m =>
        rw [Nat.succ_le_succ_iff, ih]
        constructor
        · intro hall d hd
          cases d with
          | zero => exact ⟨c, by simp, hc⟩
          | succ e =>
            rcases hall e (by omega) with ⟨c', hc', hp'⟩
            exact ⟨c', by simpa using hc', hp'⟩
        · intro hall d hd
          rcases hall (d + 1) (by omega) with ⟨c', hc', hp'⟩
          exact ⟨c', by simpa using hc', hp'⟩
    · simp only [Bool.not_eq_true] at hc
      simp only [hc, Bool.false_eq_true, if_false, List.length_nil, Nat.le_zero]
      constructor
      · intro hk d hd; omega
      · intro hall
        by_contra hk
        rcases hall 0 (by omega) with ⟨c', hc', hp'⟩
        simp only [List.getElem?_cons_zero, Option.some.injEq] at hc'
        subst hc'
        rw [hc] at hp'
        exact Bool.false_ne_true hp'

theorem matchEnds_mem_iff (text : List Char) (p : List PatElem) (i j : Nat) :
    j ∈ matchEnds text p i ↔ PatMatch text p i j := by
  induction p generalizing i with
  | nil =>
    simp only [matchEnds, List.mem_singleton]
    constructor
    · rintro rfl; exact PatMatch.nil _
    · rintro h; cases h; rfl
  | cons e ps ih =>
    cases e with
    | wb =>
      rw [matchEnds]
      by_cases hb : isWB text i = true
      · rw [if_pos hb, ih]
        constructor
        · intro h; exact PatMatch.wb ps i j hb h
        · rintro h; cases h with
          | wb _ _ _ _ h' => exact h'
      · rw [if_neg (by simp [hb])]
        simp only [List.not_mem_nil, false_iff]
        intro h; cases h with
        | wb _ _ _ hb' _ => exact hb hb'
    | atom a =>
      cases hg : text[i]? with
      | none =>
        have hred : matchEnds text (.atom a :: ps) i = [] := by rw [matchEnds, hg]
        rw [hred]
        simp only [List.not_mem_nil, false_iff]
        intro h; cases h with
        | atom _ _ _ _ c hc _ _ => rw [hg] at hc; cases hc
      | some c =>
        have hred : matchEnds text (.atom a :: ps) i =
            if atomMatches a c = true then matchEnds text ps (i + 1) else [] := by
          rw [matchEnds, hg]
        rw [hred]
        by_cases hm : atomMatches a c = true
        · rw [if_pos hm, ih]
          constructor
          · intro h; exact PatMatch.atom a ps i j c hg hm h
          · rintro h; cases h with
            | atom _ _ _ _ c' hc hm' h' =>
              rw [hg] at hc; cases hc; exact h'
        · rw [if_neg (by simp [hm])]
          simp only [List.not_mem_nil, false_iff]
          intro h; cases h with
          | atom _ _ _ _ c' hc hm' _ =>
            rw [hg] at hc; cases hc; exact hm hm'
    | ws =>
      rw [matchEnds]
      simp only [List.mem_flatMap, List.mem_map, List.mem_range]
      constructor
      · rintro ⟨k, ⟨d, hd, hdk⟩, hjk⟩
        refine PatMatch.ws ps i j k ⟨by omega, ?_⟩ ((ih (i + k)).mp hjk)
        intro d' hd'
        have hk : k ≤ ((text.drop i).takeWhile pyWS).length := by omega
        rcases (takeWhile_length_iff pyWS (text.drop i) k).mp hk d' hd' with ⟨c, hc, hp⟩
        rw [List.getElem?_drop] at hc
        exact ⟨c, hc, hp⟩
      · rintro h
        cases h with
        | ws _ _ _ k hspan h' =>
          rcases hspan with ⟨hk1, hall⟩
          have hk : k ≤ ((text.drop i).takeWhile pyWS).length := by
            rw [takeWhile_length_iff]
            intro d hd
            rcases hall d hd with ⟨c, hc, hp⟩
            refine ⟨c, ?_, hp⟩
            rw [List.getElem?_drop]
            exact hc
          exact ⟨k, ⟨((text.drop i).takeWhile pyWS).length - k, by omega, by omega⟩,
            (ih (i + k)).mpr h'⟩

/-- The leftmost-match search of `re.search`: try start positions in
ascending order. -/
def searchAux (text : List Char) (p : List PatElem) : Nat → Nat → Option (Nat × Nat)
  | 0, _ => none
  | fuel + 1, i =>
    match (matchEnds text p i).head? with
    | some j => some (i, j)
    | none => searchAux text p fuel (i + 1)

/-- `re.search`: leftmost match of the pattern, as a half-open span. -/
def regexSearch (p : List PatElem) (text : List Char) : Option (Nat × Nat) :=
  searchAux text p (text.length + 1) 0

theorem searchAux_some (text : List Char) (p : List PatElem) (fuel i i' j : Nat)
    (h : searchAux text p fuel i = some (i', j)) :
    i ≤ i' ∧ j ∈ matchEnds text p i' ∧ ∀ k, i ≤ k → k < i' → matchEnds text p k = [] := by
  induction fuel generalizing i with
  | zero => simp [searchAux] at h
  | succ fuel ih =>
    rw [searchAux] at h
    cases hh : (matchEnds text p i).head? with
    | some j0 =>
      rw [hh] at h
      simp only [Option.some.injEq, Prod.mk.injEq] at h
      rcases h with ⟨rfl, rfl⟩
      refine ⟨Nat.le_refl _, ?_, fun k hk1 hk2 => by omega⟩
      cases hme : matchEnds text p i with
      | nil => rw [hme] at hh; simp at hh
      | cons a t =>
        rw [hme] at hh
        simp only [List.head?_cons, Option.some.injEq] at hh
        subst hh
        simp [hme]
    | none =>
      rw [hh] at h
      rcases ih (i + 1) h with ⟨h1, h2, h3⟩
      refine ⟨by omega, h2, ?_⟩
      intro k hk1 hk2
      rcases Nat.eq_or_lt_of_le hk1 with heq | hlt
      · rw [← heq]
        cases hme : matchEnds text p i with
        | nil => rfl
        | cons a t => rw [hme] at hh; simp at hh
      · exact h3 k (by omega) hk2

theorem searchAux_none (text : List Char) (p : List PatElem) (fuel i : Nat)
    (h : searchAux text p fuel i = none) :
    ∀ k, i ≤ k → k < i + fuel → matchEnds text p k = [] := by
  induction fuel generalizing i with
  | zero => intro k h1 h2; omega
  | succ fuel ih =>
    rw [searchAux] at h
    cases hh : (matchEnds text p i).head? with
    | some j0 => rw [hh] at h; cases h
    | none =>
      rw [hh] at h
      intro k hk1 hk2
      rcases Nat.eq_or_lt_of_le hk1 with heq | hlt
      · rw [← heq]
        cases hme : matchEnds text p i with
        | nil => rfl
        | cons a t => rw [hme] at hh; simp at hh
      · exact ih (i + 1) h k (by omega) (by omega)

theorem isWB_gt_length (text : List Char) (i : Nat) (h : text.length < i) :
    isWB text i = false := by
  have h1 : wordAt text i = false := by
    unfold wordAt
    rw [List.getElem?_eq_none (by omega)]
  have h2 : wordAt text (i - 1) = false := by
    unfold wordAt
    rw [List.getElem?_eq_none (by omega)]
  unfold isWB
  rw [h1, h2, if_neg (by omega)]
  rfl

theorem patMatch_wb_le (text : List Char) (ps : List PatElem) (i j : Nat)
    (h : PatMatch text (.wb :: ps) i j) : i ≤ text.length := by
  cases h with
  | wb _ _ _ hb _ =>
    by_contra hgt
    rw [isWB_gt_length text i (by omega)] at hb
    exact Bool.false_ne_true hb

theorem regexSearch_none_no_match (p' : List PatElem) (text : List Char)
    (h : regexSearch (.wb :: p') text = none) :
    ∀ i j, ¬ PatMatch text (.wb :: p') i j := by
  intro i j hm
  have hle := patMatch_wb_le text p' i j hm
  have hempty := searchAux_none text (.wb :: p') (text.length + 1) 0 h i
    (by omega) (by omega)
  have := (matchEnds_mem_iff text (.wb :: p') i j).mpr hm
  rw [hempty] at this
  simp at this

theorem regexSearch_some_spec (p : List PatElem) (text : List Char) (i j : Nat)
    (h : regexSearch p text = some (i, j)) :
    PatMatch text p i j ∧ ∀ k, k < i → ∀ j', ¬ PatMatch text p k j' := by
  rcases searchAux_some text p (text.length + 1) 0 i j h with ⟨_, h2, h3⟩
  refine ⟨(matchEnds_mem_iff text p i j).mp h2, ?_⟩
  intro k hk j' hm
  have := (matchEnds_mem_iff text p k j').mpr hm
  rw [h3 k (by omega) hk] at this
  simp at this

/-- Helper of `splitWS`: `acc` is the current token, reversed. -/
def splitWSAux : List Char → List Char → List (List Char)
  | [], acc => if acc = [] then [] else [acc.reverse]
  | c :: rest, acc =>
    if pyWS c then
      if acc = [] then splitWSAux rest [] else acc.reverse :: splitWSAux rest []
    else splitWSAux rest (c :: acc)

/-- Python `str.split()`: split on runs of whitespace, dropping empties. -/
def splitWS (s : List Char) : List (List Char) := splitWSAux s []

/-- `" ".join(tokens)`. -/
def joinSpace : List (List Char) → List Char
  | [] => []
  | [t] => t
  | t :: ts => t ++ ' ' :: joinSpace ts

/-- `" ".join(error_text.split())`: the whitespace-normalized fragment. -/
def normWS (s : List Char) : List Char := joinSpace (splitWS s)

/-- `QTextDocument.find` with `FindCaseSensitively` on the document's plain
text: leftmost case-sensitive occurrence; an empty needle yields a null
cursor. -/
def qtFind (n h : List Char) : Option Nat := if n = [] then none else findFrom n h

/-- One token of the relaxed pattern, NOT escaped: a dot is the regex
wildcard, every other character of these fragments is literal. -/
def atomizeTok (t : List Char) : List CAtom :=
  t.map (fun c => if c = '.' then CAtom.dot else CAtom.lit c)

/-- Joining with the separator of the code's relaxed pattern: word boundary,
whitespace run, word boundary between consecutive tokens. -/
def joinPatCode : List (List CAtom) → List PatElem
  | [] => []
  | [t] => t.map PatElem.atom
  | t :: ts => t.map PatElem.atom ++ PatElem.wb :: PatElem.ws :: PatElem.wb :: joinPatCode ts

/-- The code's relaxed pattern: boundaries also surround every token. -/
def buildPatCode (toks : List (List CAtom)) : List PatElem :=
  PatElem.wb :: joinPatCode toks ++ [PatElem.wb]

/-- The relaxed pattern the code compiles for a normalized fragment. -/
def relaxedPatCode (needle : List Char) : List PatElem :=
  buildPatCode ((splitWS needle).map atomizeTok)

/-- The locator of `_find_and_highlight_error`: exact case-sensitive search
for the whitespace-normalized fragment first, then the case-insensitive
relaxed-pattern search; returns the span to highlight, if any. -/
def locate_error (src frag : List Char) : Option (Nat × Nat) :=
  let needle := normWS frag
  match qtFind needle src with
  | some i => some (i, i + needle.length)
  | none => regexSearch (relaxedPatCode needle) src

/-- `_find_and_highlight_error` returns the re-rendered document when a span
was found and the input unchanged otherwise; the Qt re-rendering of the
highlighted span is abstracted as `render`. -/
def find_and_highlight_result (src frag : List Char)
    (render : Nat × Nat → List Char) : List Char :=
  match locate_error src frag with
  | none => src
  | some sp => render sp

/-- A token as the CLAIMED pattern would use it: escaped, every character
literal. -/
def escapeTok (t : List Char) : List CAtom := t.map CAtom.lit

/-- Joining as the CLAIMED pattern: a bare whitespace run between tokens,
word boundaries only at the two ends of the whole pattern. -/
def joinPatClaim : List (List CAtom) → List PatElem
  | [] => []
  | [t] => t.map PatElem.atom
  | t :: ts => t.map PatElem.atom ++ PatElem.ws :: joinPatClaim ts

/-- The relaxed pattern as the claim describes it. -/
def buildPatClaim (toks : List (List CAtom)) : List PatElem :=
  PatElem.wb :: joinPatClaim toks ++ [PatElem.wb]

/-- The locator as the claim describes it: identical first step, but the
relaxed pattern escapes tokens and anchors word boundaries only at the very
start and very end. -/
def locate_error_claim (src frag : List Char) : Option (Nat × Nat) :=
  let needle := normWS frag
  match qtFind needle src with
  | some i => some (i, i + needle.length)
  | none => regexSearch (buildPatClaim ((splitWS needle).map escapeTok)) src

/-! ### The two generate_exercise parsers

`exercise.py` lines 86-87 (tag-based scheme):
```
exercise_text = extract_content_from_xml(full_response_content, "exercise")
hints = extract_content_from_xml(full_response_content, "hints", "")
```
`utils.py` lines 48-65 (heading-based scheme) with its explicit fallbacks. -/

def exerciseTag : List Char := "exercise".data

def hintsTag : List Char := "hints".data

/-- The pure parsing step of `exercise.generate_exercise`: the pair
`(exercise_text, hints)` computed from the raw backend response. -/
def parse_exercise_xml (raw : List Char) : List Char × List Char :=
  (extract_content_from_xml raw exerciseTag [], extract_content_from_xml raw hintsTag [])

def exOpenMarker : List Char := "**Exercise:**\n".data

def exCloseMarker : List Char := "\n**Hints:**".data

def hintsOpenMarker : List Char := "**Hints:**\n".data

def hintsLit : List Char := "**Hints:**".data

def exerciseLit : List Char := "**Exercise:**".data

/-- `re.search(r"\*\*Exercise:\*\*\n(.*?)\n\*\*Hints:\*\*", raw, DOTALL|IGNORECASE)`:
group 1 of the leftmost match, if any. -/
def utils_exercise_match (raw : List Char) : Option (List Char) :=
  match findCI exOpenMarker raw with
  | none => none
  | some i =>
    let region := raw.drop (i + exOpenMarker.length)
    match findCI exCloseMarker region with
    | none => none
    | some j => some (region.take j)

/-- `re.search(r"\*\*Hints:\*\*\n(.*)", raw, DOTALL|IGNORECASE)`: group 1 of
the leftmost match (greedy to the end of the input), if any. -/
def utils_hints_match (raw : List Char) : Option (List Char) :=
  (findCI hintsOpenMarker raw).map (fun i => raw.drop (i + hintsOpenMarker.length))

/-- `hay.split(needle)[0]`: everything before the first (case-sensitive)
occurrence of the separator, or the whole string. -/
def takeBeforeSub (needle hay : List Char) : List Char :=
  match findFrom needle hay with
  | none => hay
  | some i => hay.take i

/-- Helper of `replaceAll`: the fuel dominates the length of the remaining
text, and every step consumes at least one character, so the fuel never runs
out when started at the text's length. -/
def replaceAllAux (needle repl : List Char) : Nat → List Char → List Char
  | 0, s => s
  | _ + 1, [] => []
  | fuel + 1, c :: rest =>
    if needle.isPrefixOf (c :: rest) ∧ needle ≠ [] then
      repl ++ replaceAllAux needle repl fuel (rest.drop (needle.length - 1))
    else c :: replaceAllAux needle repl fuel rest

/-- Python `str.replace(needle, repl)`: replace all non-overlapping
occurrences left to right (needle nonempty at every use site). -/
def replaceAll (needle repl s : List Char) : List Char :=
  replaceAllAux needle repl s.length s

/-- The pure parsing step of `utils.generate_exercise`: the pair
`(exercise_text, hints)` with the fallback branches of lines 51-63. -/
def utils_parse_exercise (raw : List Char) : List Char × List Char :=
  let ex := match utils_exercise_match raw with
    | some g => trim g
    | none => trim (replaceAll exerciseLit [] (takeBeforeSub hintsLit raw))
  let h := match utils_hints_match raw with
    | some g =>
      let s := trim g
      if lowers s = noneDot then [] else s
    | none => []
  (ex, h)

/-! ### Cost computation (llms/lite.py lines 41-54, config.py lines 14-24) -/

/-- litellm's `CostPerToken`: per-token input and output prices. -/
structure CostPerToken where
  input_cost_per_token : ℚ
  output_cost_per_token : ℚ
deriving DecidableEq

/-- Token counts reported by a backend response. -/
structure Usage where
  prompt_tokens : Nat
  completion_tokens : Nat
deriving DecidableEq

/-- `model.split("/")[-1]`. -/
def afterLastSlash (m : List Char) : List Char :=
  (m.reverse.takeWhile (fun c => c ≠ '/')).reverse

/-- `s.split(":")[0]`. -/
def beforeFirstColon (m : List Char) : List Char := m.takeWhile (fun c => c ≠ ':')

/-- `model.split("/")[-1].split(":")[0]` (lite.py line 51). -/
def resolve_model_name (m : List Char) : List Char :=
  beforeFirstColon (afterLastSlash m)

/-- The price table of config.py. -/
def MODEL_PRICE_PER_TOKEN : List (List Char × CostPerToken) :=
  [("gemini-2.5-flash-preview-05-20".data,
      ⟨(0.15 : ℚ) / 1000000, (0.6 : ℚ) / 1000000⟩),
   ("gemini-2.5-flash-preview-05-20:thinking".data,
      ⟨(0.15 : ℚ) / 1000000, (0.6 : ℚ) / 1000000⟩),
   ("o3-mini".data,
      ⟨(1.10 : ℚ) / 1000000, (4.40 : ℚ) / 1000000⟩)]

/-- The external `litellm.completion_cost(response, custom_cost_per_token=cp)`:
with custom per-token prices it charges the response's prompt and completion
token counts at those prices. -/
def completion_cost_custom (u : Usage) (cp : CostPerToken) : ℚ :=
  u.prompt_tokens * cp.input_cost_per_token +
    u.completion_tokens * cp.output_cost_per_token

/-- The cost computed by `LiteLLM.completion` (lite.py lines 51-53):
`None` when the resolved model name has no table entry. -/
def lite_completion_cost (model : List Char) (u : Usage)
    (tbl : List (List Char × CostPerToken)) : Option ℚ :=
  match List.lookup (resolve_model_name model) tbl with
  | some cp => some (completion_cost_custom u cp)
  | none => none

/-! ### Backend adapters' configuration setters
(llms/lite.py lines 17-39, llms/openai_impl.py lines 16-35) -/

/-- The process environment, a finite map modelled as a function. -/
def EnvMap : Type := List Char → Option (List Char)

/-- `os.environ[k] = v`. -/
def setEnv (e : EnvMap) (k v : List Char) : EnvMap :=
  fun k' => if k' = k then some v else e k'

/-- `os.getenv(k, dflt)`. -/
def getEnvD (e : EnvMap) (k : List Char) (dflt : List Char) : List Char :=
  match e k with
  | some v => v
  | none => dflt

def OR_API_KEY : List Char := "OPENROUTER_API_KEY".data

def OR_BASE_URL : List Char := "OPENROUTER_BASE_URL".data

def OA_API_KEY : List Char := "OPENAI_API_KEY".data

def OA_BASE_URL : List Char := "OPENAI_BASE_URL".data

def openrouterDefaultBase : List Char := "https://openrouter.ai/api/v1".data

def openaiDefaultBase : List Char := "https://api.openai.com/v1".data

/-- The module-level litellm globals that `LiteLLM` reads and mutates. -/
structure LitellmModule where
  api_key : Option (List Char)
  base_url : List Char

/-- `LiteLLM.__init__`: seeds the litellm module globals from the
environment (`os.getenv` with the current value, resp. the default URL, as
fallback). -/
def LiteLLM.construct (env : EnvMap) (prev : LitellmModule) : LitellmModule :=
  { api_key := match env OR_API_KEY with
      | some v => some v
      | none => prev.api_key
    base_url := getEnvD env OR_BASE_URL openrouterDefaultBase }

/-- `LiteLLM.set_api_key` (lite.py lines 24-26). -/
def LiteLLM.set_api_key (st : LitellmModule) (env : EnvMap) (k : List Char) :
    LitellmModule × EnvMap :=
  ({ st with api_key := some k }, setEnv env OR_API_KEY k)

/-- `LiteLLM.set_base_url` (lite.py lines 34-36). -/
def LiteLLM.set_base_url (st : LitellmModule) (env : EnvMap) (u : List Char) :
    LitellmModule × EnvMap :=
  ({ st with base_url := u }, setEnv env OR_BASE_URL u)

/-- The per-instance fields of `OpenAILLM`. -/
structure OpenAILLMState where
  api_key : List Char
  base_url : List Char

/-- `OpenAILLM.__init__`. -/
def OpenAILLM.construct (env : EnvMap) : OpenAILLMState :=
  { api_key := getEnvD env OA_API_KEY [],
    base_url := getEnvD env OA_BASE_URL openaiDefaultBase }

/-- `OpenAILLM.set_api_key` (openai_impl.py lines 20-22). -/
def OpenAILLM.set_api_key (st : OpenAILLMState) (env : EnvMap) (k : List Char) :
    OpenAILLMState × EnvMap :=
  ({ st with api_key := k }, setEnv env OA_API_KEY k)

/-- `OpenAILLM.set_base_url` (openai_impl.py lines 30-32). -/
def OpenAILLM.set_base_url (st : OpenAILLMState) (env : EnvMap) (u : List Char) :
    OpenAILLMState × EnvMap :=
  ({ st with base_url := u }, setEnv env OA_BASE_URL u)

/-! ## The claims -/

/-- Claim C10: for both reference adapters, `set_api_key(k)` and
`set_base_url(u)` also write the value into the process environment
(OPENROUTER_API_KEY / OPENROUTER_BASE_URL for LiteLLM, OPENAI_API_KEY /
OPENAI_BASE_URL for OpenAILLM), so the configuration change outlives the
adapter instance and is inherited by every adapter of the same kind
constructed afterwards; each setter leaves the other configuration field
(key vs. base URL) unchanged, both in the environment and in the adapter
state. -/
theorem C10_setters_persist_to_env (env : EnvMap) (st0 prev : LitellmModule)
    (oa : OpenAILLMState) (k u : List Char) :
    ((LiteLLM.set_api_key st0 env k).2 OR_API_KEY = some k
      ∧ (LiteLLM.construct (LiteLLM.set_api_key st0 env k).2 prev).api_key = some k
      ∧ (LiteLLM.set_api_key st0 env k).2 OR_BASE_URL = env OR_BASE_URL
      ∧ (LiteLLM.set_api_key st0 env k).1.base_url = st0.base_url)
  ∧ ((LiteLLM.set_base_url st0 env u).2 OR_BASE_URL = some u
      ∧ (LiteLLM.construct (LiteLLM.set_base_url st0 env u).2 prev).base_url = u
      ∧ (LiteLLM.set_base_url st0 env u).2 OR_API_KEY = env OR_API_KEY
      ∧ (LiteLLM.set_base_url st0 env u).1.api_key = st0.api_key)
  ∧ ((OpenAILLM.set_api_key oa env k).2 OA_API_KEY = some k
      ∧ (OpenAILLM.construct (OpenAILLM.set_api_key oa env k).2).api_key = k
      ∧ (OpenAILLM.set_api_key oa env k).2 OA_BASE_URL = env OA_BASE_URL
      ∧ (OpenAILLM.set_api_key oa env k).1.base_url = oa.base_url)
  ∧ ((OpenAILLM.set_base_url oa env u).2 OA_BASE_URL = some u
      ∧ (OpenAILLM.construct (OpenAILLM.set_base_url oa env u).2).base_url = u
      ∧ (OpenAILLM.set_base_url oa env u).2 OA_API_KEY = env OA_API_KEY
      ∧ (OpenAILLM.set_base_url oa env u).1.api_key = oa.api_key) := by
  refine ⟨⟨?_, ?_, ?_, ?_⟩, ⟨?_, ?_, ?_, ?_⟩, ⟨?_, ?_, ?_, ?_⟩, ⟨?_, ?_, ?_, ?_⟩⟩
  · simp [LiteLLM.set_api_key, setEnv]
  · simp [LiteLLM.set_api_key, LiteLLM.construct, setEnv]
  · simp [LiteLLM.set_api_key, setEnv]
    intro h
    exact absurd h (by decide)
  · simp [LiteLLM.set_api_key]
  · simp [LiteLLM.set_base_url, setEnv]
  · simp [LiteLLM.set_base_url, LiteLLM.construct, setEnv, getEnvD]
  · simp [LiteLLM.set_base_url, setEnv]
    intro h
    exact absurd h (by decide)
  · simp [LiteLLM.set_base_url]
  · simp [OpenAILLM.set_api_key, setEnv]
  · simp [OpenAILLM.set_api_key, OpenAILLM.construct, setEnv, getEnvD]
  · simp [OpenAILLM.set_api_key, setEnv]
    intro h
    exact absurd h (by decide)
  · simp [OpenAILLM.set_api_key]
  · simp [OpenAILLM.set_base_url, setEnv]
  · simp [OpenAILLM.set_base_url, OpenAILLM.construct, setEnv, getEnvD]
  · simp [OpenAILLM.set_base_url, setEnv]
    intro h
    exact absurd h (by decide)
  · simp [OpenAILLM.set_base_url]

/-- The model id that config.py actually uses for checking, whose
":thinking"-suffixed price-table key can never be selected. -/
def thinkingModelId : List Char :=
  "openrouter/google/gemini-2.5-flash-preview-05-20:thinking".data

def geminiBase : List Char := "gemini-2.5-flash-preview-05-20".data

def geminiThinking : List Char := "gemini-2.5-flash-preview-05-20:thinking".data

/-- Claim C2: the cost computation always strips the colon suffix before the
table lookup, so for the model id
`openrouter/google/gemini-2.5-flash-preview-05-20:thinking` — whose price
table contains BOTH the base key and the fuller `:thinking` key — it resolves
to the base entry; the more specific entry is unreachable, contradicting the
claim that the fuller key is preferred when both exist. -/
theorem C2_specific_key_not_preferred :
    resolve_model_name thinkingModelId = geminiBase
  ∧ geminiThinking ∈ MODEL_PRICE_PER_TOKEN.map Prod.fst
  ∧ geminiBase ≠ geminiThinking
  ∧ List.lookup (resolve_model_name thinkingModelId) MODEL_PRICE_PER_TOKEN
      = List.lookup geminiBase MODEL_PRICE_PER_TOKEN := by
  refine ⟨by decide, by decide, by decide, by rfl⟩

/-- Claim C8: cost resolution strips the provider-path prefix and the colon
suffix; a priced model yields `some` non-negative amount (at non-negative
per-token prices), an unpriced model yields `none` — absent, not zero, not an
error. -/
theorem C8_cost_resolution (m : List Char) (u : Usage)
    (tbl : List (List Char × CostPerToken)) :
    (List.lookup (resolve_model_name m) tbl = none →
        lite_completion_cost m u tbl = none)
  ∧ ∀ cp, List.lookup (resolve_model_name m) tbl = some cp →
      0 ≤ cp.input_cost_per_token → 0 ≤ cp.output_cost_per_token →
        lite_completion_cost m u tbl = some (completion_cost_custom u cp)
        ∧ 0 ≤ completion_cost_custom u cp := by
  constructor
  · intro h
    unfold lite_completion_cost
    rw [h]
  · intro cp h h1 h2
    constructor
    · unfold lite_completion_cost
      rw [h]
    · unfold completion_cost_custom
      have ha : (0 : ℚ) ≤ (u.prompt_tokens : ℚ) * cp.input_cost_per_token :=
        mul_nonneg (by positivity) h1
      have hb : (0 : ℚ) ≤ (u.completion_tokens : ℚ) * cp.output_cost_per_token :=
        mul_nonneg (by positivity) h2
      linarith

/-- The price table of the specification's cost-resolution example. -/
def specExampleTable : List (List Char × CostPerToken) :=
  [("model-x".data, ⟨(0.15 : ℚ) / 1000000, (0.6 : ℚ) / 1000000⟩)]

theorem C8_cost_resolution_witness :
    lite_completion_cost "vendor/model-x:variant".data ⟨100, 200⟩ specExampleTable
      = some (completion_cost_custom ⟨100, 200⟩
          ⟨(0.15 : ℚ) / 1000000, (0.6 : ℚ) / 1000000⟩)
  ∧ 0 ≤ completion_cost_custom ⟨100, 200⟩ ⟨(0.15 : ℚ) / 1000000, (0.6 : ℚ) / 1000000⟩
  ∧ lite_completion_cost "vendor/unknown-model".data ⟨100, 200⟩ specExampleTable
      = none := by
  refine ⟨?_, ?_, ?_⟩
  · exact ((C8_cost_resolution "vendor/model-x:variant".data ⟨100, 200⟩
      specExampleTable).2 ⟨(0.15 : ℚ) / 1000000, (0.6 : ℚ) / 1000000⟩
      (by rfl) (by norm_num) (by norm_num)).1
  · exact ((C8_cost_resolution "vendor/model-x:variant".data ⟨100, 200⟩
      specExampleTable).2 ⟨(0.15 : ℚ) / 1000000, (0.6 : ℚ) / 1000000⟩
      (by rfl) (by norm_num) (by norm_num)).2
  · exact (C8_cost_resolution "vendor/unknown-model".data ⟨100, 200⟩
      specExampleTable).1 (by rfl)

/-- A backend response with no locatable exercise tag at all. -/
def rawNoExerciseTag : List Char := "Do this task. <hints>None.</hints>".data

/-- Claim C1 (counterexample): for the tag-based `generate_exercise` of
exercise.py, a response without a locatable exercise tag yields the DEFAULT
EMPTY exercise text, not the claimed fallback of everything before the hints
tag with the opening tag token stripped (which here is nonempty). -/
theorem C1_counterexample :
    (parse_exercise_xml rawNoExerciseTag).1 = []
  ∧ trim (replaceAll (openTagOf exerciseTag) []
      (takeBeforeSub (openTagOf hintsTag) rawNoExerciseTag)) = "Do this task.".data
  ∧ "Do this task.".data ≠ ([] : List Char) := by
  refine ⟨by decide, by decide, by decide⟩

/-- Claim C1 (amended): when no exercise tag/heading is locatable, neither
parser raises: the tag-based parser of exercise.py falls back to the default
empty string for the exercise text, while the heading-based parser of
utils.py falls back to everything before the first literal hints heading
with all exercise-heading tokens removed and whitespace trimmed. -/
theorem C1_amended_fallbacks (raw raw2 : List Char)
    (h1 : ∀ i, ¬ occursAtCI (openTagOf exerciseTag) raw i)
    (h2 : ∀ i, ¬ occursAtCI exOpenMarker raw2 i) :
    (parse_exercise_xml raw).1 = []
  ∧ (utils_parse_exercise raw2).1
      = trim (replaceAll exerciseLit [] (takeBeforeSub hintsLit raw2)) := by
  constructor
  · have hf : findCI (openTagOf exerciseTag) raw = none := (findCI_eq_none_iff _ _).mpr h1
    unfold parse_exercise_xml extract_content_from_xml
    simp only [hf]
  · have hf : findCI exOpenMarker raw2 = none := (findCI_eq_none_iff _ _).mpr h2
    unfold utils_parse_exercise utils_exercise_match
    simp only [hf]

theorem C1_amended_fallbacks_witness :
    (parse_exercise_xml "Do this. <hints>None.</hints>".data).1 = []
  ∧ (utils_parse_exercise "Do this. <hints>None.</hints>".data).1
      = trim (replaceAll exerciseLit []
          (takeBeforeSub hintsLit "Do this. <hints>None.</hints>".data)) :=
  C1_amended_fallbacks "Do this. <hints>None.</hints>".data
    "Do this. <hints>None.</hints>".data
    ((findCI_eq_none_iff (openTagOf exerciseTag) "Do this. <hints>None.</hints>".data).mp
      (by decide))
    ((findCI_eq_none_iff exOpenMarker "Do this. <hints>None.</hints>".data).mp
      (by decide))

/-- Claim C7: when the whitespace-normalized fragment has no exact
occurrence in the source and the relaxed pattern matches nowhere, the
locator reports no match and `_find_and_highlight_error` returns its input
unchanged, whatever the highlighting renderer would have produced. -/
theorem C7_no_match_returns_input (src frag : List Char)
    (render : Nat × Nat → List Char)
    (h1 : ∀ i, ¬ occursAt (normWS frag) src i)
    (h2 : ∀ i j, ¬ PatMatch src (relaxedPatCode (normWS frag)) i j) :
    locate_error src frag = none
  ∧ find_and_highlight_result src frag render = src := by
  have hq : qtFind (normWS frag) src = none := by
    unfold qtFind
    by_cases hn : normWS frag = []
    · rw [if_pos hn]
    · rw [if_neg hn]
      exact (findFrom_eq_none_iff _ _).mpr h1
  have hr : regexSearch (relaxedPatCode (normWS frag)) src = none := by
    cases hre : regexSearch (relaxedPatCode (normWS frag)) src with
    | none => rfl
    | some p =>
      rcases p with ⟨i, j⟩
      exact absurd (regexSearch_some_spec _ _ _ _ hre).1 (h2 i j)
  have hl : locate_error src frag = none := by
    unfold locate_error
    simp only [hq, hr]
  refine ⟨hl, ?_⟩
  unfold find_and_highlight_result
  simp only [hl]

theorem C7_no_match_returns_input_witness :
    locate_error "I go to school".data "nonexistent phrase".data = none
  ∧ find_and_highlight_result "I go to school".data "nonexistent phrase".data
      (fun _ => "HIGHLIGHTED".data) = "I go to school".data :=
  C7_no_match_returns_input "I go to school".data "nonexistent phrase".data
    (fun _ => "HIGHLIGHTED".data)
    ((findFrom_eq_none_iff (normWS "nonexistent phrase".data) "I go to school".data).mp
      (by decide))
    (regexSearch_none_no_match _ "I go to school".data (by decide))

/-- Claim C4: `extract_content_from_xml` locates the first case-insensitive
span of the tag pair, trims its content, returns the default when the tag
pair is not found (no opening tag anywhere, or no closing tag after the
first opening tag) and when the trimmed content is empty or
case-insensitively equals the sentinel, and otherwise returns the trimmed
content. -/
theorem C4_extract_section (text tag dflt : List Char) :
    ((∀ i, ¬ occursAtCI (openTagOf tag) text i) →
        extract_content_from_xml text tag dflt = dflt)
  ∧ ∀ i, firstOccurCI (openTagOf tag) text i →
      ((∀ j, ¬ occursAtCI (closeTagOf tag) (text.drop (i + (openTagOf tag).length)) j) →
          extract_content_from_xml text tag dflt = dflt)
      ∧ ∀ j, firstOccurCI (closeTagOf tag) (text.drop (i + (openTagOf tag).length)) j →
          extract_content_from_xml text tag dflt =
            (if trim ((text.drop (i + (openTagOf tag).length)).take j) ≠ []
                ∧ lowers (trim ((text.drop (i + (openTagOf tag).length)).take j)) ≠ noneDot
             then trim ((text.drop (i + (openTagOf tag).length)).take j)
             else dflt) := by
  refine ⟨?_, ?_⟩
  · intro h
    have hf : findCI (openTagOf tag) text = none := (findCI_eq_none_iff _ _).mpr h
    unfold extract_content_from_xml
    simp only [hf]
  · intro i hfi
    have hf : findCI (openTagOf tag) text = some i := (findCI_eq_some_iff _ _ _).mpr hfi
    refine ⟨?_, ?_⟩
    · intro h
      have hc : findCI (closeTagOf tag) (text.drop (i + (openTagOf tag).length)) = none :=
        (findCI_eq_none_iff _ _).mpr h
      unfold extract_content_from_xml
      simp only [hf, hc]
    · intro j hcj
      have hc : findCI (closeTagOf tag) (text.drop (i + (openTagOf tag).length)) = some j :=
        (findCI_eq_some_iff _ _ _).mpr hcj
      unfold extract_content_from_xml
      simp only [hf, hc]

theorem C4_extract_section_witness :
    extract_content_from_xml "no tags here at all".data "hints".data "DF".data
      = "DF".data
  ∧ extract_content_from_xml "<hints>unclosed".data "hints".data "DF".data
      = "DF".data
  ∧ extract_content_from_xml "<HINTS> None. </hints>".data "hints".data "DF".data
      = "DF".data
  ∧ extract_content_from_xml "<hints> use the past tense </hints>".data
      "hints".data "DF".data = "use the past tense".data := by
  refine ⟨?_, ?_, ?_, ?_⟩
  · exact (C4_extract_section "no tags here at all".data "hints".data "DF".data).1
      ((findCI_eq_none_iff _ _).mp (by decide))
  · exact (((C4_extract_section "<hints>unclosed".data "hints".data "DF".data).2
      0 ((findCI_eq_some_iff _ _ _).mp (by decide))).1
      ((findCI_eq_none_iff _ _).mp (by decide)))
  · exact ((((C4_extract_section "<HINTS> None. </hints>".data "hints".data "DF".data).2
      0 ((findCI_eq_some_iff _ _ _).mp (by decide))).2
      7 ((findCI_eq_some_iff _ _ _).mp (by decide))).trans (by decide))
  · exact ((((C4_extract_section "<hints> use the past tense </hints>".data
      "hints".data "DF".data).2
      0 ((findCI_eq_some_iff _ _ _).mp (by decide))).2
      20 ((findCI_eq_some_iff _ _ _).mp (by decide))).trans (by decide))

theorem findFrom_cons_shift (n : List Char) (c : Char) (t : List Char)
    (h : n.isPrefixOf (c :: t) = false) :
    findFrom n (c :: t) = (findFrom n t).map (· + 1) := by
  rw [findFrom, if_neg (by simp [h])]

/-- Skipping a prefix in which the needle provably never starts. -/
theorem findFrom_append_shift (n pre rest : List Char)
    (hocc : ∀ k, k < pre.length → (n.isPrefixOf ((pre ++ rest).drop k)) = false) :
    findFrom n (pre ++ rest) = (findFrom n rest).map (· + pre.length) := by
  induction pre with
  | nil =>
    simp only [List.nil_append, List.length_nil]
    cases findFrom n rest <;> simp
  | cons c t ih =>
    rw [List.cons_append, findFrom_cons_shift n c (t ++ rest)
      (by simpa using hocc 0 (by simp))]
    rw [ih (fun k hk => by simpa using hocc (k + 1) (by simpa using hk))]
    cases findFrom n rest with
    | none => simp
    | some v => simp; omega

/-- The well-formed tail of the C6 round-trip responses. -/
def tailAfterExercise : List Char := "</exercise><hints>None.</hints>".data

/-- Claim C6: for a well-formed response consisting of the exercise tag pair
around a trimmed, nonempty, non-sentinel exercise text free of tag
characters, followed by a hints section holding exactly the sentinel, the
tag parser returns the exact inner exercise text and the empty string for
the hints. -/
theorem C6_wellformed_roundtrip (ex : List Char)
    (h1 : (lowers ex).all (fun c => c ≠ '<') = true)
    (h2 : trim ex = ex) (h3 : ex ≠ []) (h4 : lowers ex ≠ noneDot) :
    parse_exercise_xml (openTagOf exerciseTag ++ (ex ++ tailAfterExercise))
      = (ex, []) := by
  have hlex : (lowers ex).length = ex.length := List.length_map ex lowerChar
  have hraw : lowers (openTagOf exerciseTag ++ (ex ++ tailAfterExercise))
      = "<exercise>".data ++ (lowers ex ++ "</exercise><hints>none.</hints>".data) := by
    unfold lowers
    rw [List.map_append, List.map_append]
    rfl
  have hA : findCI (openTagOf exerciseTag)
      (openTagOf exerciseTag ++ (ex ++ tailAfterExercise)) = some 0 := by
    unfold findCI
    rw [hraw]
    exact findFrom_append_self "<exercise>".data _ (by decide)
  have hB : (openTagOf exerciseTag ++ (ex ++ tailAfterExercise)).drop
      (0 + (openTagOf exerciseTag).length) = ex ++ tailAfterExercise := by
    rw [Nat.zero_add]
    exact List.drop_left _ _
  have hC : findCI (closeTagOf exerciseTag) (ex ++ tailAfterExercise)
      = some ex.length := by
    unfold findCI
    have hsplit : lowers (ex ++ tailAfterExercise)
        = lowers ex ++ "</exercise><hints>none.</hints>".data := by
      unfold lowers
      rw [List.map_append]
      rfl
    have hlc : lowers (closeTagOf exerciseTag) = '<' :: "/exercise>".data := by decide
    rw [hsplit, hlc,
      findFrom_append_all_ne '<' "/exercise>".data (lowers ex)
        "</exercise><hints>none.</hints>".data h1,
      show findFrom ('<' :: "/exercise>".data)
        "</exercise><hints>none.</hints>".data = some 0 from by decide]
    simp [hlex]
  have hD : (ex ++ tailAfterExercise).take ex.length = ex := List.take_left _ _
  have hE : findCI (openTagOf hintsTag)
      (openTagOf exerciseTag ++ (ex ++ tailAfterExercise)) = some (ex.length + 21) := by
    unfold findCI
    rw [hraw]
    have hlh : lowers (openTagOf hintsTag) = '<' :: "hints>".data := by decide
    rw [hlh]
    rw [findFrom_append_shift ('<' :: "hints>".data) "<exercise>".data _ ?hocc]
    case hocc =>
      intro k hk
      have hk10 : k < 10 := by simpa using hk
      clear hk
      interval_cases k <;> simp [List.isPrefixOf, String.data]
    rw [findFrom_append_all_ne '<' "hints>".data (lowers ex)
        "</exercise><hints>none.</hints>".data h1,
      show findFrom ('<' :: "hints>".data)
        "</exercise><hints>none.</hints>".data = some 11 from by decide]
    simp only [Option.map_some', Option.some.injEq, hlex,
      List.length_cons, List.length_nil]
    omega
  have hF : (openTagOf exerciseTag ++ (ex ++ tailAfterExercise)).drop
      ((ex.length + 21) + (openTagOf hintsTag).length) = "None.</hints>".data := by
    have h7 : (openTagOf hintsTag).length = 7 := by decide
    rw [h7, show ex.length + 21 + 7 = 10 + (ex.length + 18) from by omega,
      ← List.drop_drop, List.drop_left' (show (openTagOf exerciseTag).length = 10 from by decide),
      ← List.drop_drop, List.drop_left]
    decide
  have hG : findCI (closeTagOf hintsTag) ("None.</hints>".data) = some 5 := by decide
  unfold parse_exercise_xml extract_content_from_xml
  simp only [hA, hB, hC, hE, hF, hG, hD, h2]
  rw [if_pos (And.intro h3 h4), if_neg (by decide)]

theorem C6_wellformed_roundtrip_witness :
    parse_exercise_xml (openTagOf exerciseTag
        ++ ("Write about your town".data ++ tailAfterExercise))
      = ("Write about your town".data, []) :=
  C6_wellformed_roundtrip "Write about your town".data
    (by decide) (by decide) (by decide) (by decide)

/-- Claim C3 (counterexample): the code's relaxed pattern places word
boundaries around EVERY token (the join separator is boundary, whitespace
run, boundary) and does not escape tokens; the claimed pattern (escaped
tokens, anchors only at the very start and very end) disagrees with it in
both directions.  With fragment "go, to" on source "go,  to school" the code
finds nothing (the boundary after the comma fails) while the claimed pattern
returns the span (0, 7); with fragment "a.c" on source "abc" the unescaped
dot lets the code match (0, 3) while the claimed escaped pattern finds
nothing. -/
theorem C3_counterexample :
    locate_error "go,  to school".data "go, to".data = none
  ∧ locate_error_claim "go,  to school".data "go, to".data = some (0, 7)
  ∧ locate_error "abc".data "a.c".data = some (0, 3)
  ∧ locate_error_claim "abc".data "a.c".data = none := by
  refine ⟨by decide, by decide, by decide, by decide⟩

/-- Regex metacharacters other than the dot.  The code does not escape the
tokens of the relaxed pattern, so fragments are restricted to characters the
embedded pattern language gives the same meaning the regex engine would. -/
def metaChar (c : Char) : Bool :=
  c = '\\' || c = '*' || c = '+' || c = '?' || c = '(' || c = ')' ||
  c = '[' || c = ']' || c = '\x7b' || c = '\x7d' || c = '|' || c = '^' || c = '$'

/-- Claim C3 (amended): the locator first searches, case-sensitively, for the
exact whitespace-normalized fragment against the un-normalized source and
returns the leftmost occurrence's span; only if that fails does it search the
relaxed pattern, whose tokens are joined by word-boundary/whitespace-run/
word-boundary separators (boundaries around every token, plus the two outer
anchors) and are NOT escaped, so a dot is a wildcard; the relaxed search is
case-insensitive and yields the leftmost matching span. -/
theorem C3_amended_locator (src frag : List Char)
    (_hmeta : (normWS frag).all (fun c => ¬ metaChar c) = true) :
    (∀ i, normWS frag ≠ [] → firstOccur (normWS frag) src i →
        locate_error src frag = some (i, i + (normWS frag).length))
  ∧ ((∀ i, ¬ occursAt (normWS frag) src i) →
      ((∀ p, locate_error src frag = some p →
          PatMatch src (relaxedPatCode (normWS frag)) p.1 p.2
          ∧ ∀ k, k < p.1 → ∀ j, ¬ PatMatch src (relaxedPatCode (normWS frag)) k j)
        ∧ (locate_error src frag = none →
            ∀ i j, ¬ PatMatch src (relaxedPatCode (normWS frag)) i j))) := by
  constructor
  · intro i hne hfi
    have hq : qtFind (normWS frag) src = some i := by
      unfold qtFind
      rw [if_neg hne]
      exact (findFrom_eq_some_iff _ _ _).mpr hfi
    unfold locate_error
    simp only [hq]
  · intro hno
    have hq : qtFind (normWS frag) src = none := by
      unfold qtFind
      by_cases hn : normWS frag = []
      · rw [if_pos hn]
      · rw [if_neg hn]
        exact (findFrom_eq_none_iff _ _).mpr hno
    constructor
    · intro p hp
      have hre : regexSearch (relaxedPatCode (normWS frag)) src = some p := by
        unfold locate_error at hp
        simp only [hq] at hp
        exact hp
      rcases p with ⟨i, j⟩
      exact regexSearch_some_spec _ _ _ _ hre
    · intro hnone i j
      have hre : regexSearch (relaxedPatCode (normWS frag)) src = none := by
        unfold locate_error at hnone
        simp only [hq] at hnone
        exact hnone
      have hpat : relaxedPatCode (normWS frag)
          = PatElem.wb :: (joinPatCode ((splitWS (normWS frag)).map atomizeTok)
              ++ [PatElem.wb]) := rfl
      rw [hpat] at hre
      have := regexSearch_none_no_match
        (joinPatCode ((splitWS (normWS frag)).map atomizeTok) ++ [PatElem.wb]) src hre i j
      rw [hpat]
      exact this

theorem C3_amended_locator_witness :
    locate_error "I   goes\nto school".data "I goes".data = some (0, 8)
  ∧ PatMatch "I   goes\nto school".data
      (relaxedPatCode (normWS "I goes".data)) 0 8 := by
  have h := (C3_amended_locator "I   goes\nto school".data "I goes".data (by decide)).2
    ((findFrom_eq_none_iff _ _).mp (by decide))
  exact ⟨by decide, (h.1 (0, 8) (by decide)).1⟩

theorem laHolds_cons_ne (c : Char) (l : List Char) (h : c ≠ '\n') :
    laHolds (c :: l) = false := by
  unfold laHolds
  simp [h]

theorem explScan_cons_no (c : Char) (l : List Char) (h : laHolds (c :: l) = false) :
    explScan (c :: l) = (c :: (explScan l).1, (explScan l).2) := by
  conv_lhs => rw [explScan]
  rw [if_neg (by simp [h])]

theorem explScan_at_sep (sep : List Char) (hsep : laHolds sep = true) :
    explScan sep = ([], sep) := by
  cases sep with
  | nil => rfl
  | cons c r =>
    unfold explScan
    rw [if_pos hsep]

theorem explScan_prepend (E rest : List Char)
    (hE : E.all (fun c => c ≠ '\n') = true) :
    explScan (E ++ rest) = (E ++ (explScan rest).1, (explScan rest).2) := by
  induction E with
  | nil => simp
  | cons c t ih =>
    simp only [List.all_cons, Bool.and_eq_true, decide_eq_true_eq] at hE
    rw [List.cons_append, explScan_cons_no c (t ++ rest) (laHolds_cons_ne c _ hE.1),
      ih hE.2]
    simp

theorem dropWhile_append_of_ne (p : Char → Bool) (xs ys : List Char)
    (h : xs.dropWhile p ≠ []) :
    (xs ++ ys).dropWhile p = xs.dropWhile p ++ ys := by
  induction xs with
  | nil => exact absurd rfl h
  | cons c t ih =>
    by_cases hc : p c = true
    · rw [List.dropWhile_cons, if_pos hc] at h
      rw [List.cons_append, List.dropWhile_cons, if_pos hc,
        List.dropWhile_cons, if_pos hc]
      exact ih h
    · rw [List.cons_append, List.dropWhile_cons, if_neg hc,
        List.dropWhile_cons, if_neg hc, List.cons_append]

theorem all_dropWhile (p q : Char → Bool) (l : List Char)
    (h : l.all q = true) : (l.dropWhile p).all q = true := by
  induction l with
  | nil => simp
  | cons c t ih =>
    simp only [List.all_cons, Bool.and_eq_true] at h
    rw [List.dropWhile_cons]
    by_cases hc : p c = true
    · rw [if_pos hc]; exact ih h.2
    · rw [if_neg hc]
      simp only [List.all_cons, Bool.and_eq_true]
      exact ⟨h.1, h.2⟩

theorem dropWhile_idem (p : Char → Bool) (l : List Char) :
    (l.dropWhile p).dropWhile p = l.dropWhile p := by
  induction l with
  | nil => rfl
  | cons c t ih =>
    rw [List.dropWhile_cons]
    by_cases hc : p c = true
    · rw [if_pos hc]; exact ih
    · rw [if_neg hc, List.dropWhile_cons, if_neg hc]

theorem trim_append_dropWhile (e X : List Char) (he : e.dropWhile pyWS ≠ []) :
    trim (e.dropWhile pyWS ++ X) = trim (e ++ X) := by
  unfold trim trimLeft
  rw [dropWhile_append_of_ne pyWS e X he,
    dropWhile_append_of_ne pyWS (e.dropWhile pyWS) X (by rw [dropWhile_idem]; exact he),
    dropWhile_idem]

theorem trim_dropWhile_eq (e : List Char) : trim (e.dropWhile pyWS) = trim e := by
  unfold trim trimLeft
  rw [dropWhile_idem]

theorem scanStep_shrink (s : List Char) (i j : Nat)
    (h1 : findFrom openText s = some i) :
    (explScan (((s.drop (i + 6)).drop (j + 7)).dropWhile pyWS)).2.length < s.length := by
  have hb := findFrom_some_le openText s i h1
  have h6 : openText.length = 6 := rfl
  have h3 := explScan_snd_length (((s.drop (i + 6)).drop (j + 7)).dropWhile pyWS)
  have h4 := dropWhile_length_le pyWS ((s.drop (i + 6)).drop (j + 7))
  simp only [List.length_drop] at h3 h4
  omega

theorem scanAnnotsAux_fuel_eq (f : Nat) : ∀ (g : Nat) (s : List Char),
    s.length ≤ f → s.length ≤ g → scanAnnotsAux f s = scanAnnotsAux g s := by
  induction f with
  | zero =>
    intro g s hf hg
    have hs : s = [] := List.eq_nil_of_length_eq_zero (by omega)
    subst hs
    cases g with
    | zero => rfl
    | succ g' => rfl
  | succ f' ih =>
    intro g s hf hg
    cases g with
    | zero =>
      have hs : s = [] := List.eq_nil_of_length_eq_zero (by omega)
      subst hs
      rfl
    | succ g' =>
      cases h1 : findFrom openText s with
      | none => simp only [scanAnnotsAux, h1]
      | some i =>
        cases h2 : findFrom closeText (s.drop (i + 6)) with
        | none => simp only [scanAnnotsAux, h1, h2]
        | some j =>
          simp only [scanAnnotsAux, h1, h2]
          have hs := scanStep_shrink s i j h1
          rw [ih g' _ (by omega) (by omega)]

theorem scanAnnots_none (s : List Char) (h : findFrom openText s = none) :
    scanAnnots s = [] := by
  unfold scanAnnots
  cases hl : s.length with
  | zero => rfl
  | succ m => simp only [scanAnnotsAux, h]

theorem scanAnnots_step (s : List Char) (i j : Nat)
    (h1 : findFrom openText s = some i)
    (h2 : findFrom closeText (s.drop (i + 6)) = some j) :
    scanAnnots s = ((s.drop (i + 6)).take j,
        (explScan (((s.drop (i + 6)).drop (j + 7)).dropWhile pyWS)).1)
      :: scanAnnots ((explScan (((s.drop (i + 6)).drop (j + 7)).dropWhile pyWS)).2) := by
  have hpos : 1 ≤ s.length := by
    have := findFrom_some_le openText s i h1
    have h6 : openText.length = 6 := rfl
    omega
  unfold scanAnnots
  rw [show s.length = (s.length - 1) + 1 from by omega]
  simp only [scanAnnotsAux, h1, h2]
  congr 1
  have hs := scanStep_shrink s i j h1
  exact scanAnnotsAux_fuel_eq (s.length - 1) _ _ (by omega) (Nat.le_refl _)

theorem isPrefixOf_cons_head_ne (a : Char) (n : List Char) (c : Char) (t : List Char)
    (h : c ≠ a) : ((a :: n).isPrefixOf (c :: t)) = false := by
  rw [isPrefixOf_cons_cons, beq_eq_false_iff_ne.mpr (fun hh => h hh.symm), Bool.false_and]

theorem findFrom_open_after_bullet (X : List Char) :
    findFrom openText ("- ".data ++ (openText ++ X)) = some 2 := by
  rw [findFrom_append_shift openText "- ".data (openText ++ X) ?hocc]
  case hocc =>
    intro k hk
    have hk2 : k < 2 := by simpa using hk
    clear hk
    interval_cases k <;> simp [openText, List.isPrefixOf, String.data]
  rw [findFrom_append_self openText X (by decide)]
  rfl

theorem findFrom_open_after_sep (X : List Char) :
    findFrom openText ("\n- ".data ++ (openText ++ X)) = some 3 := by
  rw [findFrom_append_shift openText "\n- ".data (openText ++ X) ?hocc]
  case hocc =>
    intro k hk
    have hk3 : k < 3 := by simpa using hk
    clear hk
    interval_cases k <;> simp [openText, List.isPrefixOf, String.data]
  rw [findFrom_append_self openText X (by decide)]
  rfl

theorem findFrom_close_after_frag (f X : List Char)
    (hf : f.all (fun c => c ≠ '<') = true) :
    findFrom closeText (f ++ (closeText ++ X)) = some f.length := by
  rw [show closeText = '<' :: "/text>".data from rfl,
    findFrom_append_all_ne '<' "/text>".data f (('<' :: "/text>".data) ++ X) hf,
    findFrom_append_self ('<' :: "/text>".data) X (by decide)]
  simp

theorem drop_bullet_open (X : List Char) :
    ("- ".data ++ (openText ++ X)).drop (2 + 6) = X := by
  rw [← List.drop_drop, List.drop_left' (show ("- ".data).length = 2 from rfl),
    List.drop_left' (show openText.length = 6 from rfl)]

theorem drop_sep_open (X : List Char) :
    ("\n- ".data ++ (openText ++ X)).drop (3 + 6) = X := by
  rw [← List.drop_drop, List.drop_left' (show ("\n- ".data).length = 3 from rfl),
    List.drop_left' (show openText.length = 6 from rfl)]

theorem take_frag (f X : List Char) : (f ++ (closeText ++ X)).take f.length = f :=
  List.take_left _ _

theorem drop_frag_close (f X : List Char) :
    (f ++ (closeText ++ X)).drop (f.length + 7) = X := by
  rw [← List.drop_drop, List.drop_left,
    List.drop_left' (show closeText.length = 7 from rfl)]

/-- One `re.findall` step on a well-delimited bullet entry. -/
theorem scanAnnots_entry (pre f T : List Char) (i : Nat)
    (hf : f.all (fun c => c ≠ '<') = true)
    (hopen : findFrom openText (pre ++ (openText ++ (f ++ (closeText ++ T)))) = some i)
    (hdrop : (pre ++ (openText ++ (f ++ (closeText ++ T)))).drop (i + 6)
        = f ++ (closeText ++ T)) :
    scanAnnots (pre ++ (openText ++ (f ++ (closeText ++ T))))
      = (f, (explScan (T.dropWhile pyWS)).1)
        :: scanAnnots ((explScan (T.dropWhile pyWS)).2) := by
  have h2 : findFrom closeText
      ((pre ++ (openText ++ (f ++ (closeText ++ T)))).drop (i + 6)) = some f.length := by
    rw [hdrop]
    exact findFrom_close_after_frag f T hf
  have hstep := scanAnnots_step (pre ++ (openText ++ (f ++ (closeText ++ T)))) i
    f.length hopen h2
  rw [hdrop, take_frag, drop_frag_close] at hstep
  exact hstep

theorem laHolds_newline_bullet (r2 : List Char)
    (h : openText.isPrefixOf (r2.dropWhile pyWS) = true) :
    laHolds ('\n' :: ('-' :: r2)) = true := by
  unfold laHolds
  dsimp only
  rw [List.dropWhile_cons, if_neg (show ¬ pyWS '-' = true from by decide)]
  simp [h]

theorem laHolds_newline_bullet_false (r2 : List Char)
    (h : openText.isPrefixOf (r2.dropWhile pyWS) = false) :
    laHolds ('\n' :: ('-' :: r2)) = false := by
  unfold laHolds
  dsimp only
  rw [List.dropWhile_cons, if_neg (show ¬ pyWS '-' = true from by decide)]
  simp [h]

theorem laHolds_sep (X : List Char) :
    laHolds ("\n- ".data ++ (openText ++ X)) = true := by
  rw [show "\n- ".data ++ (openText ++ X)
      = '\n' :: ('-' :: (' ' :: (openText ++ X))) from rfl]
  apply laHolds_newline_bullet
  rw [List.dropWhile_cons, if_pos (show pyWS ' ' = true from rfl),
    show openText ++ X = '<' :: ("text>".data ++ X) from rfl,
    List.dropWhile_cons, if_neg (show ¬ pyWS '<' = true from by decide)]
  exact isPrefixOf_append_self openText X

theorem explScan_ws_entry (e rest : List Char)
    (hn : e.all (fun c => c ≠ '\n') = true) (hw : e.dropWhile pyWS ≠ []) :
    explScan ((' ' :: (e ++ rest)).dropWhile pyWS)
      = (e.dropWhile pyWS ++ (explScan rest).1, (explScan rest).2) := by
  rw [List.dropWhile_cons, if_pos (show pyWS ' ' = true from rfl),
    dropWhile_append_of_ne pyWS e rest hw,
    explScan_prepend (e.dropWhile pyWS) rest (all_dropWhile pyWS _ e hn)]

theorem explScan_ws_last (e : List Char)
    (hn : e.all (fun c => c ≠ '\n') = true) :
    explScan ((' ' :: e).dropWhile pyWS) = (e.dropWhile pyWS, []) := by
  rw [List.dropWhile_cons, if_pos (show pyWS ' ' = true from rfl),
    show explScan (e.dropWhile pyWS) = explScan (e.dropWhile pyWS ++ []) from by
      rw [List.append_nil],
    explScan_prepend (e.dropWhile pyWS) [] (all_dropWhile pyWS _ e hn)]
  simp [explScan]

/-- Claim C5 (amended): the extractor returns the empty list when the
section content is empty or case-insensitively equals the sentinel;
otherwise it produces one (fragment, explanation) pair per `re.findall`
match: for bullets separated by a newline-dash-tag boundary, whose
explanations are newline-free and not entirely whitespace, one pair per
bullet, in encounter order, with both parts trimmed, with exactly one
leading dash and following whitespace stripped from a dash-initial
explanation, and with an empty captured fragment still producing its
entry. -/
theorem C5_amended_annotated_errors (f1 f2 e1 e2 : List Char)
    (hf1 : f1.all (fun c => c ≠ '<') = true)
    (hf2 : f2.all (fun c => c ≠ '<') = true)
    (he1n : e1.all (fun c => c ≠ '\n') = true)
    (he1w : e1.dropWhile pyWS ≠ [])
    (he2n : e2.all (fun c => c ≠ '\n') = true) :
    (∀ c, c = [] ∨ lowers c = noneDot → extract_annotated_errors c = [])
  ∧ extract_annotated_errors
      ("- ".data ++ (openText ++ (f1 ++ (closeText ++ (' ' :: (e1 ++
        ("\n- ".data ++ (openText ++ (f2 ++ (closeText ++ (' ' :: e2)))))))))))
      = [(trim f1, dashClean (trim e1)), (trim f2, dashClean (trim e2))] := by
  constructor
  · intro c hc
    unfold extract_annotated_errors
    rw [if_pos hc]
  · unfold extract_annotated_errors
    rw [if_neg ?hne]
    case hne =>
      rintro (h | h)
      · have hlen := congrArg List.length h
        rw [List.length_append, show ("- ".data).length = 2 from rfl,
          List.length_nil] at hlen
        omega
      · have hlen := congrArg List.length h
        unfold lowers at hlen
        rw [List.length_map] at hlen
        simp only [List.length_append, List.length_cons] at hlen
        rw [show openText.length = 6 from rfl, show closeText.length = 7 from rfl,
          show noneDot.length = 5 from rfl, List.length_nil] at hlen
        omega
    rw [scanAnnots_entry "- ".data f1
        (' ' :: (e1 ++ ("\n- ".data ++ (openText ++ (f2 ++ (closeText ++ (' ' :: e2)))))))
        2 hf1 (findFrom_open_after_bullet _) (drop_bullet_open _),
      explScan_ws_entry e1 _ he1n he1w,
      explScan_at_sep _ (laHolds_sep _)]
    dsimp only
    rw [scanAnnots_entry "\n- ".data f2 (' ' :: e2) 3 hf2
        (findFrom_open_after_sep _) (drop_sep_open _),
      explScan_ws_last e2 he2n]
    dsimp only
    rw [show scanAnnots ([] : List Char) = [] from rfl]
    simp [cleanPair, trim_dropWhile_eq, dashClean]

/-- Helper of `countTextPairs` (fuel as in `scanAnnotsAux`). -/
def countTextPairsAux : Nat → List Char → Nat
  | 0, _ => 0
  | fuel + 1, s =>
    match findFrom openText s with
    | none => 0
    | some i =>
      match findFrom closeText (s.drop (i + 6)) with
      | none => 0
      | some j => 1 + countTextPairsAux fuel ((s.drop (i + 6)).drop (j + 7))

/-- The number of non-overlapping `<text>...</text>` occurrences of a
section content, scanning left to right. -/
def countTextPairs (s : List Char) : Nat := countTextPairsAux s.length s

/-- Claim C5 (counterexample): the extractor does NOT produce one pair per
`<text>...</text>` occurrence: a second occurrence that is not preceded by a
newline-dash bullet separator is absorbed into the first explanation, so a
content with two occurrences yields a single pair. -/
theorem C5_counterexample :
    countTextPairs "<text>a</text> x <text>b</text> y".data = 2
  ∧ (extract_annotated_errors "<text>a</text> x <text>b</text> y".data).length = 1
  ∧ extract_annotated_errors "<text>a</text> x <text>b</text> y".data
      = [("a".data, "x <text>b</text> y".data)] := by
  refine ⟨by decide, by decide, by decide⟩

theorem C5_amended_annotated_errors_witness :
    extract_annotated_errors
        "- <text>a</text> expl A\n- <text></text> - whole-text issue".data
      = [("a".data, "expl A".data), ([], "whole-text issue".data)]
  ∧ extract_annotated_errors "NONE.".data = [] := by
  have h := C5_amended_annotated_errors "a".data [] "expl A".data
    "- whole-text issue".data (by decide) (by decide) (by decide) (by decide) (by decide)
  exact ⟨h.2.trans (by decide), h.1 "NONE.".data (Or.inr (by decide))⟩

/-- A plain bullet (no tag markup after its dash) does not satisfy the
lookahead, so the explanation scan runs straight through it. -/
theorem explScan_absorb_plain (p sep2 : List Char)
    (hpn : p.all (fun c => c ≠ '\n') = true)
    (hpl : p.all (fun c => c ≠ '<') = true)
    (hpw : p.dropWhile pyWS ≠ [])
    (hsep : laHolds sep2 = true) :
    explScan ("\n- ".data ++ (p ++ sep2)) = ("\n- ".data ++ (p ++ []), sep2) := by
  have hla : laHolds ('\n' :: ('-' :: (' ' :: (p ++ sep2)))) = false := by
    apply laHolds_newline_bullet_false
    rw [List.dropWhile_cons, if_pos (show pyWS ' ' = true from rfl),
      dropWhile_append_of_ne pyWS p sep2 hpw]
    cases hdp : p.dropWhile pyWS with
    | nil => exact absurd hdp hpw
    | cons c0 dr =>
      rw [List.cons_append]
      apply isPrefixOf_cons_head_ne
      have hall := all_dropWhile pyWS _ p hpl
      rw [hdp] at hall
      simp only [List.all_cons, Bool.and_eq_true, decide_eq_true_eq] at hall
      exact hall.1
  rw [show "\n- ".data ++ (p ++ sep2) = '\n' :: ('-' :: (' ' :: (p ++ sep2))) from rfl,
    explScan_cons_no _ _ hla,
    explScan_cons_no _ _ (laHolds_cons_ne '-' _ (by decide)),
    explScan_cons_no _ _ (laHolds_cons_ne ' ' _ (by decide)),
    explScan_prepend p sep2 hpn,
    explScan_at_sep sep2 hsep]
  dsimp only
  rfl

/-- Claim C9 (counterexample): a plain untagged bullet line between two
annotated bullets is NOT silently dropped: it ends up inside the preceding
entry's explanation, which the claim says cannot happen. -/
theorem C9_counterexample :
    extract_annotated_errors
        "- <text>a</text> A\n- plain bullet\n- <text>b</text> B".data
      = [("a".data, "A\n- plain bullet".data), ("b".data, "B".data)]
  ∧ "A\n- plain bullet".data ≠ "A".data := by
  refine ⟨by decide, by decide⟩

/-- Claim C9 (amended): the extractor produces one output entry per
`re.findall` match (not per tag pair); text before the first text tag
produces no entry; a section with no text tag occurrence at all — such as a
non-empty section consisting only of plain untagged bullet lines — yields
the empty list; and a plain untagged bullet line between two annotated
bullets is absorbed into the preceding entry's explanation rather than
dropped. -/
theorem C9_amended_untagged_handling (f g e p q : List Char)
    (hf : f.all (fun c => c ≠ '<') = true)
    (hg : g.all (fun c => c ≠ '<') = true)
    (hen : e.all (fun c => c ≠ '\n') = true)
    (hew : e.dropWhile pyWS ≠ [])
    (hpn : p.all (fun c => c ≠ '\n') = true)
    (hpl : p.all (fun c => c ≠ '<') = true)
    (hpw : p.dropWhile pyWS ≠ [])
    (hqn : q.all (fun c => c ≠ '\n') = true) :
    (∀ c, (∀ i, ¬ occursAt openText c i) → extract_annotated_errors c = [])
  ∧ extract_annotated_errors
      ("- ".data ++ (openText ++ (f ++ (closeText ++ (' ' :: (e ++
        ("\n- ".data ++ (p ++ ("\n- ".data ++ (openText ++
          (g ++ (closeText ++ (' ' :: q)))))))))))))
      = [(trim f, dashClean (trim (e ++ ("\n- ".data ++ p)))),
         (trim g, dashClean (trim q))] := by
  constructor
  · intro c hno
    unfold extract_annotated_errors
    by_cases hc : c = [] ∨ lowers c = noneDot
    · rw [if_pos hc]
    · rw [if_neg hc, scanAnnots_none c ((findFrom_eq_none_iff _ _).mpr hno)]
      rfl
  · unfold extract_annotated_errors
    rw [if_neg ?hne]
    case hne =>
      rintro (h | h)
      · have hlen := congrArg List.length h
        rw [List.length_append, show ("- ".data).length = 2 from rfl,
          List.length_nil] at hlen
        omega
      · have hlen := congrArg List.length h
        unfold lowers at hlen
        rw [List.length_map] at hlen
        simp only [List.length_append, List.length_cons] at hlen
        rw [show openText.length = 6 from rfl, show closeText.length = 7 from rfl,
          show noneDot.length = 5 from rfl, List.length_nil] at hlen
        omega
    rw [scanAnnots_entry "- ".data f
        (' ' :: (e ++ ("\n- ".data ++ (p ++ ("\n- ".data ++ (openText ++
          (g ++ (closeText ++ (' ' :: q)))))))))
        2 hf (findFrom_open_after_bullet _) (drop_bullet_open _),
      explScan_ws_entry e _ hen hew,
      explScan_absorb_plain p _ hpn hpl hpw (laHolds_sep _)]
    dsimp only
    rw [scanAnnots_entry "\n- ".data g (' ' :: q) 3 hg
        (findFrom_open_after_sep _) (drop_sep_open _),
      explScan_ws_last q hqn]
    dsimp only
    rw [show scanAnnots ([] : List Char) = [] from rfl]
    simp only [List.map_cons, List.map_nil, cleanPair, List.append_nil]
    rw [trim_append_dropWhile e ("\n- ".data ++ p) hew, trim_dropWhile_eq]

theorem C9_amended_untagged_handling_witness :
    extract_annotated_errors
        "- <text>a</text> A\n- a plain line\n- <text>b</text> B".data
      = [("a".data, "A\n- a plain line".data), ("b".data, "B".data)]
  ∧ extract_annotated_errors "- plain one\n- plain two".data = [] := by
  have h := C9_amended_untagged_handling "a".data "b".data "A".data
    "a plain line".data "B".data (by decide) (by decide) (by decide) (by decide)
    (by decide) (by decide) (by decide) (by decide)
  exact ⟨h.2.trans (by decide),
    h.1 "- plain one\n- plain two".data
      ((findFrom_eq_none_iff openText "- plain one\n- plain two".data).mp (by decide))⟩

end LanguageTutor
